import Mathlib

/-!
# Verification of the llmify inclusion-decision engine and crawler

Shallow embedding of the pattern matcher (`internal/ignore`), the
text/binary classifier and content reader (`IsLikelyTextFile`,
`ReadFileContent`), the converged project crawler (`CrawlProject`), and the
tree renderer (`GenerateFileTree` / `walkTree`), together with theorems
settling the specification claims about them.

Conventions:
  - Go byte slices are `List Nat` (each element a byte value `< 256`).
  - Relative paths inside the crawler are lists of path components
    (`List String`); the crawl runs with the root at `[]`, so absolute
    and root-relative paths coincide.
  - Go strings handed to the pattern matcher are Lean `String`s.
  - Fallible operations return `Except Unit`.
-/

/-! ## String and ordering helpers -/

/-- Lexicographic byte-order comparison on character lists (Go compares
strings by raw bytes; on valid UTF-8 this equals code-point order). -/
def strLeAux : List Char → List Char → Bool
  | [], _ => true
  | _ :: _, [] => false
  | a :: as, b :: bs =>
    if a.val.toNat < b.val.toNat then true
    else if b.val.toNat < a.val.toNat then false
    else strLeAux as bs

/-- Go `s <= t` on strings (the order used by `sort.Strings`). -/
def strLe (a b : String) : Bool := strLeAux a.data b.data

theorem strLeAux_total (a b : List Char) : strLeAux a b = true ∨ strLeAux b a = true := by
  induction a generalizing b with
  | nil => left; cases b <;> rfl
  | cons x xs ih =>
    cases b with
    | nil => right; rfl
    | cons y ys =>
      simp only [strLeAux]
      rcases Nat.lt_trichotomy x.val.toNat y.val.toNat with h | h | h
      · left; simp [h]
      · have h1 : ¬ x.val.toNat < y.val.toNat := by omega
        have h2 : ¬ y.val.toNat < x.val.toNat := by omega
        simp only [h1, h2, if_false]
        exact ih ys
      · right; simp [h]

theorem strLeAux_trans (a b c : List Char) (h1 : strLeAux a b = true)
    (h2 : strLeAux b c = true) : strLeAux a c = true := by
  induction a generalizing b c with
  | nil => cases c <;> rfl
  | cons x xs ih =>
    cases b with
    | nil => simp [strLeAux] at h1
    | cons y ys =>
      cases c with
      | nil => simp [strLeAux] at h2
      | cons z zs =>
        simp only [strLeAux] at h1 h2 ⊢
        by_cases hxy : x.val.toNat < y.val.toNat
        · by_cases hyz : y.val.toNat < z.val.toNat
          · have : x.val.toNat < z.val.toNat := by omega
            simp [this]
          · simp only [hyz, if_false] at h2
            by_cases hzy : z.val.toNat < y.val.toNat
            · simp [hzy] at h2
            · have : x.val.toNat < z.val.toNat := by omega
              simp [this]
        · simp only [hxy, if_false] at h1
          by_cases hyx : y.val.toNat < x.val.toNat
          · simp [hyx] at h1
          · simp only [hyx, if_false] at h1
            by_cases hyz : y.val.toNat < z.val.toNat
            · have : x.val.toNat < z.val.toNat := by omega
              simp [this]
            · simp only [hyz, if_false] at h2
              by_cases hzy : z.val.toNat < y.val.toNat
              · simp [hzy] at h2
              · simp only [hzy, if_false] at h2
                have h3 : ¬ x.val.toNat < z.val.toNat := by omega
                have h4 : ¬ z.val.toNat < x.val.toNat := by omega
                simp only [h3, h4, if_false]
                exact ih ys zs h1 h2

/-- Join path components with `/` (Go builds `relPath` strings this way on
Unix, via `filepath.Rel` and `filepath.ToSlash`). -/
def joinP (p : List String) : String := String.intercalate "/" p

/-- The order `sort.Strings` induces on component paths: byte order of the
joined relative path strings. -/
def pathR (a b : List String) : Prop := strLe (joinP a) (joinP b) = true

instance : DecidableRel pathR := fun a b => by unfold pathR; infer_instance

instance : IsTotal (List String) pathR :=
  ⟨fun a b => strLeAux_total (joinP a).data (joinP b).data⟩

instance : IsTrans (List String) pathR :=
  ⟨fun a b c h1 h2 => strLeAux_trans (joinP a).data (joinP b).data (joinP c).data h1 h2⟩

/-- ASCII lower-casing of a character (the fragment of Go
`strings.ToLower` relevant to file names). -/
def lowerChar (c : Char) : Char :=
  if 65 ≤ c.val.toNat ∧ c.val.toNat ≤ 90 then Char.ofNat (c.val.toNat + 32) else c

/-- ASCII lower-casing of a string (models Go `strings.ToLower`). -/
def lowerStr (s : String) : String := ⟨s.data.map lowerChar⟩

/-- Case-insensitive string order (lower-case first, then byte compare). -/
def ciLe (a b : String) : Bool := strLe (lowerStr a) (lowerStr b)

/-! ## Pattern matcher (`internal/ignore`: `ShouldIgnore`, `matchPattern`)

`matchPattern` calls Go `path/filepath.Match` with the error discarded
(`if matched, _ := filepath.Match(...)`), so a malformed pattern counts as
"no match".  The port below is the direct recursive equivalent of the
chunk-scanning Go implementation; it is made total with a fuel argument
strictly exceeding the combined pattern+name length (every recursive call
consumes at least one character of the pattern or of the name). -/

/-- Go `getEsc`: read one (possibly escaped) character-class element.
Returns `none` on a malformed pattern (`ErrBadPattern`). -/
def getEsc : List Char → Option (Char × List Char)
  | [] => none
  | c :: rest =>
    if c = '-' ∨ c = ']' then none
    else if c = '\\' then
      match rest with
      | [] => none
      | d :: rest' => if rest' = [] then none else some (d, rest')
    else if rest = [] then none else some (c, rest)

/-- Scan of a character-class body after `[` (and after an optional `^`),
accumulating whether the character `r` fell in any range; mirrors the
class loop of Go `matchChunk`.  Returns `(matched, rest-of-pattern)`,
or `none` for a malformed class. -/
def classScanF : Nat → Char → Bool → Nat → List Char → Option (Bool × List Char)
  | 0, _, _, _, _ => none
  | fuel + 1, r, m, nr, chunk =>
    match chunk with
    | [] => none
    | ']' :: rest =>
      if nr > 0 then some (m, rest) else none
    | _ =>
      match getEsc chunk with
      | none => none
      | some (lo, chunk1) =>
        match chunk1 with
        | '-' :: chunk2 =>
          match getEsc chunk2 with
          | none => none
          | some (hi, chunk3) =>
            classScanF fuel r (m || (lo.val.toNat ≤ r.val.toNat && r.val.toNat ≤ hi.val.toNat)) (nr + 1) chunk3
        | _ =>
          classScanF fuel r (m || (lo.val.toNat ≤ r.val.toNat && r.val.toNat ≤ lo.val.toNat)) (nr + 1) chunk1

/-- Fueled port of Go `path/filepath.Match` (pattern, then name).
`*` and `?` never match `/`; `\\` escapes; `[...]` are character classes. -/
def globMatchF : Nat → List Char → List Char → Bool
  | 0, _, _ => false
  | fuel + 1, p, n =>
    match p with
    | [] => n.isEmpty
    | '*' :: p' =>
      globMatchF fuel p' n ||
        (match n with
         | [] => false
         | c :: n' => c != '/' && globMatchF fuel ('*' :: p') n')
    | '?' :: p' =>
      (match n with
       | [] => false
       | c :: n' => c != '/' && globMatchF fuel p' n')
    | '[' :: p' =>
      (match n with
       | [] => false
       | c :: n' =>
         let negp : Bool × List Char :=
           match p' with
           | '^' :: rest => (true, rest)
           | _ => (false, p')
         match classScanF (negp.2.length + 1) c false 0 negp.2 with
         | none => false
         | some (m, p3) => (m != negp.1) && globMatchF fuel p3 n')
    | '\\' :: p' =>
      (match p' with
       | [] => false
       | x :: p'' =>
         match n with
         | [] => false
         | c :: n' => c == x && globMatchF fuel p'' n')
    | x :: p' =>
      (match n with
       | [] => false
       | c :: n' => c == x && globMatchF fuel p' n')

/-- Go `filepath.Match pattern name` with a `Match` error counting as
no match (as `matchPattern` uses it). -/
def globMatch (pat n : List Char) : Bool := globMatchF (pat.length + n.length + 1) pat n

/-- Go `filepath.Base` for slash-separated paths. -/
def baseName (path : List Char) : List Char :=
  if path = [] then ['.']
  else
    let p1 := path.reverse.dropWhile (· = '/')
    if p1 = [] then ['/']
    else (p1.takeWhile (· ≠ '/')).reverse

/-- Go `strings.Split path "/"`. -/
def splitOnSlash : List Char → List (List Char)
  | [] => [[]]
  | c :: rest =>
    match splitOnSlash rest with
    | [] => [[]]
    | h :: t => if c = '/' then [] :: h :: t else (c :: h) :: t

/-- Rejoin path components with `/` (Go `strings.Join parts "/"`). -/
def joinSlash : List (List Char) → List Char
  | [] => []
  | [x] => x
  | x :: xs => x ++ '/' :: joinSlash xs

/-- `matchPattern` from `internal/ignore` (on raw character lists). -/
def matchPattern (path pat : List Char) : Bool :=
  if path = pat then true
  else if globMatch pat path then true
  else if ['/', '*', '*'].isSuffixOf pat then
    let pre := pat.take (pat.length - 3)
    (pre ++ ['/']).isPrefixOf path || path = pre
  else if ['*', '*', '/', '*', '.'].isPrefixOf pat then
    (pat.drop 4).isSuffixOf path
  else if ¬ pat.contains '/' then
    baseName path = pat
  else false

/-- The inner sub-path loop of `ShouldIgnore`: try the pattern against
every path-depth-truncated suffix `strings.Join(pathParts[i:], "/")`. -/
def anySubPathMatch (path pat : List Char) : Bool :=
  let parts := splitOnSlash path
  (List.range parts.length).any fun i => matchPattern (joinSlash (parts.drop i)) pat

/-- `ShouldIgnore` from `internal/ignore`: first matching non-negated
pattern returns `true`, a matching negated pattern returns `false`;
patterns are consulted in list order.  (`filepath.ToSlash` is the
identity for the slash-separated paths modelled here.) -/
def shouldIgnoreAux (path : List Char) : List String → Bool
  | [] => false
  | pat :: rest =>
    let pc := pat.data
    if pc.head? = some '!' then
      -- negated pattern: a match forces false immediately
      (if matchPattern path pc.tail then false else shouldIgnoreAux path rest)
    else if pc.getLast? = some '/' then
      -- explicit directory pattern
      (if path = pc.dropLast ∨ (pc.dropLast ++ ['/']).isPrefixOf path then true
       else shouldIgnoreAux path rest)
    else if matchPattern path pc then true
    else if anySubPathMatch path pc then true
    else shouldIgnoreAux path rest

/-- `IgnoreMatcher.ShouldIgnore patterns path`. -/
def shouldIgnore (patterns : List String) (path : String) : Bool :=
  shouldIgnoreAux path.data patterns

example : shouldIgnore ["*.log", "!important.log"] "important.log" = true := by decide
example : shouldIgnore ["*.log", "!important.log"] "debug.log" = true := by decide
example : shouldIgnore ["!important.log", "*.log"] "important.log" = false := by decide
example : shouldIgnore ["!important.log", "*.log"] "debug.log" = true := by decide
example : shouldIgnore ["build/"] "build" = true := by decide
example : shouldIgnore ["build/"] "build/output.txt" = true := by decide
example : shouldIgnore ["build/"] "rebuild/output.txt" = false := by decide
example : shouldIgnore ["*.log"] "a/b/debug.log" = true := by decide

/-! ## UTF-8 validity, Latin-1 fallback (`util.ReadFileContent`),
text/binary classifier (`IsLikelyTextFile`) -/

/-- Is `b` a UTF-8 continuation byte (`0x80..0xBF`)? -/
def isCont (b : Nat) : Bool := 0x80 ≤ b && b ≤ 0xBF

/-- Port of Go `unicode/utf8.Valid` on byte lists, as the accept-ranges
state machine Go uses: `k` pending continuation bytes, the next of which
must lie in `[lo, hi]` (later ones in `[0x80, 0xBF]`).  Rejects overlong
encodings, surrogates and code points above U+10FFFF. -/
def utf8ValidSM : Nat → Nat → Nat → List Nat → Bool
  | 0, _, _, [] => true
  | 0, _, _, b :: bs =>
    if b < 0x80 then utf8ValidSM 0 0 0 bs
    else if 0xC2 ≤ b && b ≤ 0xDF then utf8ValidSM 1 0x80 0xBF bs
    else if b = 0xE0 then utf8ValidSM 2 0xA0 0xBF bs
    else if (0xE1 ≤ b && b ≤ 0xEC) || b = 0xEE || b = 0xEF then utf8ValidSM 2 0x80 0xBF bs
    else if b = 0xED then utf8ValidSM 2 0x80 0x9F bs
    else if b = 0xF0 then utf8ValidSM 3 0x90 0xBF bs
    else if 0xF1 ≤ b && b ≤ 0xF3 then utf8ValidSM 3 0x80 0xBF bs
    else if b = 0xF4 then utf8ValidSM 3 0x80 0x8F bs
    else false
  | _ + 1, _, _, [] => false
  | k + 1, lo, hi, b :: bs => (lo ≤ b && b ≤ hi) && utf8ValidSM k 0x80 0xBF bs

/-- Go `unicode/utf8.Valid`. -/
def utf8Valid (bs : List Nat) : Bool := utf8ValidSM 0 0 0 bs

/-- UTF-8 encoding of the code point of one Latin-1 byte — what Go's
`latin1Builder.WriteRune(rune(b))` appends for `b < 256`. -/
def latin1EncByte (b : Nat) : List Nat :=
  if b < 0x80 then [b] else [0xC0 + b / 64, 0x80 + b % 64]

/-- The byte string Go's Latin-1 fallback loop builds. -/
def latin1Bytes (bs : List Nat) : List Nat := (bs.map latin1EncByte).flatten

/-- Decode a UTF-8 byte string to its code points, byte at a time with
`k` pending continuation bytes and the partial code point `acc`.  Valid
sequences decode to their code point; a malformed byte decodes to U+FFFD
and decoding resumes (the claims only concern well-formed output of the
Latin-1 fallback, which this decodes exactly). -/
def utf8DecodeAcc : Nat → Nat → List Nat → List Nat
  | 0, _, [] => []
  | 0, _, b :: bs =>
    if b < 0x80 then b :: utf8DecodeAcc 0 0 bs
    else if 0xC0 ≤ b && b ≤ 0xDF then utf8DecodeAcc 1 (b - 0xC0) bs
    else if 0xE0 ≤ b && b ≤ 0xEF then utf8DecodeAcc 2 (b - 0xE0) bs
    else if 0xF0 ≤ b && b ≤ 0xF7 then utf8DecodeAcc 3 (b - 0xF0) bs
    else 0xFFFD :: utf8DecodeAcc 0 0 bs
  | _ + 1, _, [] => [0xFFFD]
  | k + 1, acc, b :: bs =>
    if isCont b then
      (match k with
       | 0 => (acc * 64 + (b - 0x80)) :: utf8DecodeAcc 0 0 bs
       | k' + 1 => utf8DecodeAcc (k' + 1) (acc * 64 + (b - 0x80)) bs)
    else 0xFFFD :: utf8DecodeAcc 0 0 bs

/-- UTF-8 decoding of a whole byte string. -/
def utf8Decode (bs : List Nat) : List Nat := utf8DecodeAcc 0 0 bs

instance {ε α : Type} [DecidableEq ε] [DecidableEq α] : DecidableEq (Except ε α) := fun a b =>
  match a, b with
  | .error e, .error f =>
    if h : e = f then isTrue (by rw [h]) else isFalse (fun hh => by cases hh; exact h rfl)
  | .ok x, .ok y =>
    if h : x = y then isTrue (by rw [h]) else isFalse (fun hh => by cases hh; exact h rfl)
  | .error _, .ok _ => isFalse (fun hh => by cases hh)
  | .ok _, .error _ => isFalse (fun hh => by cases hh)

/-- `util.ReadFileContent`: the file's bytes (`none` when `os.ReadFile`
fails), returning the bytes of the produced Go string. -/
def readFileContent (contentBytes : Option (List Nat)) : Except Unit (List Nat) :=
  match contentBytes with
  | none => .error ()
  | some bs =>
    if utf8Valid bs then .ok bs
    else .ok (latin1Bytes bs)

/-- The binary extension/name set of the converged `IsLikelyTextFile`
(`DefaultBinaryExtensions`). -/
def binaryExtensions : List String :=
  [".png", ".jpg", ".jpeg", ".gif", ".bmp", ".tiff", ".ico",
   ".pdf",
   ".mp3", ".wav", ".ogg", ".flac",
   ".mp4", ".avi", ".mov", ".mkv",
   ".zip", ".gz", ".tar", ".rar", ".7z",
   ".exe", ".dll", ".so", ".dylib", ".app",
   ".o", ".a", ".obj",
   ".class", ".jar",
   ".pyc", ".pyo",
   ".sqlite", ".db",
   ".woff", ".woff2", ".ttf", ".otf", ".eot",
   ".DS_Store"]

/-- Go `filepath.Ext`: suffix of the final path element starting at its
last dot (empty if there is no dot). -/
def extOf (name : String) : String :=
  let rev := name.data.reverse
  let pre := rev.takeWhile (fun c => c ≠ '.' ∧ c ≠ '/')
  match rev.drop pre.length with
  | '.' :: _ => ⟨'.' :: pre.reverse⟩
  | _ => ""

example : extOf "img.png" = ".png" := by decide
example : extOf "Makefile" = "" := by decide
example : extOf "a.tar.gz" = ".gz" := by decide

/-- The converged `IsLikelyTextFile` (extension fast path, 4096-byte
sniff, empty ⇒ text, invalid UTF-8 ⇒ binary — including the explicit
UTF-16 BOM case — more than two NUL bytes ⇒ binary).  `readErr` models
`os.Open`/`Read` failing for this file. -/
def isLikelyTextFile (name : String) (content : List Nat) (readErr : Bool) : Except Unit Bool :=
  let ext := lowerStr (extOf name)
  if ext ∈ binaryExtensions then .ok false
  else if readErr then .error ()
  else
    let chunk := content.take 4096
    if chunk.isEmpty then .ok true
    else if ¬ utf8Valid chunk then
      -- the UTF-16 BOM check and the general invalid-UTF-8 case both
      -- return "binary" in the source
      match chunk with
      | 0xFE :: 0xFF :: _ => .ok false
      | 0xFF :: 0xFE :: _ => .ok false
      | _ => .ok false
    else if (chunk.countP (· = 0)) > 2 then .ok false
    else .ok true

/-- The crawler's reading of the classifier: a classification error is
treated as "not text" (`isText = false`). -/
def isTextB (name : String) (content : List Nat) (readErr : Bool) : Bool :=
  match isLikelyTextFile name content readErr with
  | .error _ => false
  | .ok b => b

example : isLikelyTextFile "x.txt" [0x89, 0x50, 0x4E, 0x47, 0x0D, 0x0A] false = .ok false := by decide
example : isLikelyTextFile "x.txt" [104, 105, 10] false = .ok true := by decide
example : isTextB "x.txt" [104, 105] true = false := by decide

/-! ## Filesystem model and the converged crawler (`CrawlProject`)

A directory tree of entries.  `readErr` on a file models `os.Open`/`Read`
failing for content sniffing; `readErr` on a directory models
`os.ReadDir`/`WalkDir` failing to enumerate it (the per-entry walk error:
`filepath.WalkDir` reports it to the callback, which logs a warning and
returns `SkipDir`). -/

inductive Entry where
  | file (name : String) (content : List Nat) (readErr : Bool)
  | dir (name : String) (readErr : Bool) (children : List Entry)

def Entry.name : Entry → String
  | .file n _ _ => n
  | .dir n _ _ => n

def Entry.isDir : Entry → Bool
  | .file _ _ _ => false
  | .dir _ _ _ => true

/-- `os.Stat` on a relative component path inside the modelled tree. -/
def lookupE : List Entry → List String → Option Entry
  | _, [] => none
  | es, [n] => es.find? (fun e => e.name == n)
  | es, n :: rest =>
    match es.find? (fun e => e.name == n) with
    | some (.dir _ _ cs) => lookupE cs rest
    | _ => none

/-- What one visited entry contributes to the crawl state (`CrawlProject`
only ever appends to `includedFiles`/`includedPathsForTree` and increments
the two counters, so the walk is a monoidal fold of per-entry deltas). -/
structure Delta where
  files : List (List String)
  excl : Nat
  incl : Nat
  tree : List (List String)
deriving DecidableEq

instance : Add Delta :=
  ⟨fun a b => ⟨a.files ++ b.files, a.excl + b.excl, a.incl + b.incl, a.tree ++ b.tree⟩⟩

/-- The delta of every "mark excluded" branch (`excludedCount++`). -/
def exclDelta : Delta := ⟨[], 1, 0, []⟩

/-- The crawl options of `CrawlProject` (the three matchers are the
compiled `ignorer`, `includeMatcher` and `excludeMatcher`, abstracted as
path predicates; the crawler consults them only through `MatchesPath`). -/
structure Opts where
  output : List String
  maxDepth : Nat
  excludeBinary : Bool
  ign : List String → Bool
  inc : List String → Bool
  exc : List String → Bool

/-- Step A of the walk callback: is the visited path the `--path` target
or (for a directory target) inside it? -/
def scopeInside : Option (List String × Bool) → List String → Bool
  | none, _ => true
  | some (t, tDir), q => q == t || (tDir && t.isPrefixOf q && q != t)

/-- Is the visited path a proper ancestor of the `--path` target
(`strings.HasPrefix(absTargetPath, absPath+Separator)`)?  Such directories
are *descended into* even though they are marked excluded. -/
def scopeAncestor : Option (List String × Bool) → List String → Bool
  | none, _ => false
  | some (t, _), q => q.isPrefixOf t && q != t

/-- The straight-line file decision of the walk callback (checks A and
1–5 in source order; each failed check is an early `return nil` after
`excludedCount++`, so the file is included exactly when every check
passes). -/
def fileIncludedB (o : Opts) (sc : Option (List String × Bool)) (q : List String)
    (n : String) (c : List Nat) (r : Bool) : Bool :=
  scopeInside sc q &&
  !(decide (0 < o.maxDepth) && decide (o.maxDepth < q.length)) &&
  q != o.output &&
  !(o.ign q && !o.inc q) &&
  !(o.exc q && !o.inc q) &&
  !(!o.inc q && o.excludeBinary && !isTextB n c r)

/-- Visit of a file entry at path `q`. -/
def fileVisit (o : Opts) (sc : Option (List String × Bool)) (q : List String)
    (n : String) (c : List Nat) (r : Bool) : Delta :=
  if fileIncludedB o sc q n c r then ⟨[q], 0, 1, [q]⟩ else exclDelta

/-- Visit of a directory entry at path `q`: its delta, and whether the
walk descends into it (`false` models `filepath.SkipDir`).  A directory
outside the scope is excluded but still descended into when it is an
ancestor of the target. -/
def dirVisit (o : Opts) (sc : Option (List String × Bool)) (q : List String) : Delta × Bool :=
  if !scopeInside sc q then (exclDelta, scopeAncestor sc q)
  else if (decide (0 < o.maxDepth) && decide (o.maxDepth < q.length)) ||
          q == o.output || (o.ign q && !o.inc q) || (o.exc q && !o.inc q) then
    (exclDelta, false)
  else (⟨[], 0, 1, [q]⟩, true)

mutual
/-- Walk one entry whose parent directory is at path `p` (pre-order, as
`filepath.WalkDir`).  A directory whose listing fails (`readErr`)
keeps its own visit delta but contributes no children. -/
def visitEntry (o : Opts) (sc : Option (List String × Bool)) (p : List String) : Entry → Delta
  | .file n c r => fileVisit o sc (p ++ [n]) n c r
  | .dir n r cs =>
    let q := p ++ [n]
    let dv := dirVisit o sc q
    if dv.2 && !r then dv.1 + visitList o sc q cs else dv.1

/-- Walk a directory listing in order. -/
def visitList (o : Opts) (sc : Option (List String × Bool)) (p : List String) : List Entry → Delta
  | [] => ⟨[], 0, 0, []⟩
  | e :: es => visitEntry o sc p e + visitList o sc p es
end

/-! ## Tree renderer (`GenerateFileTree` / `walkTree` in `tree.go`)

`walkTree` reads a directory, filters entries by the include criteria,
sorts them (directories first, then case-insensitively by name), and
prints one connector line per entry, recursing into subdirectories.

The model renders each entry's subtree as a function of the prefix and
depth it will finally be printed under; sorting then happens on the pairs
(entry, rendered-subtree), which is the same output `walkTree` builds via
its post-sort loop. -/

/-- The strict comparator of `walkTree`'s `sort.Slice` call:
directories first, then `strings.ToLower` names in `<` order. -/
def treeLess (a b : Entry) : Bool :=
  if a.isDir != b.isDir then a.isDir
  else !strLe (lowerStr b.name) (lowerStr a.name)

/-- The sort relation induced by sorting with strict comparator
`treeLess` (an insertion sort with `¬ treeLess b a` places equal keys
adjacently and produces exactly the orders `sort.Slice` can produce). -/
def treeR (a b : Entry × (String → Nat → List String)) : Prop :=
  treeLess b.1 a.1 = false

instance : DecidableRel treeR := fun a b => by unfold treeR; infer_instance

theorem strLe_total (a b : String) : strLe a b = true ∨ strLe b a = true :=
  strLeAux_total a.data b.data

theorem strLe_trans {a b c : String} (h1 : strLe a b = true) (h2 : strLe b c = true) :
    strLe a c = true := strLeAux_trans a.data b.data c.data h1 h2

instance : IsTotal (Entry × (String → Nat → List String)) treeR := by
  constructor
  intro a b
  unfold treeR treeLess
  cases ha : a.1.isDir <;> cases hb : b.1.isDir <;> simp [ha, hb] <;>
    rcases strLe_total (lowerStr a.1.name) (lowerStr b.1.name) with h | h <;> simp [h]

instance : IsTrans (Entry × (String → Nat → List String)) treeR := by
  constructor
  intro a b c h1 h2
  unfold treeR treeLess at h1 h2 ⊢
  cases ha : a.1.isDir <;> cases hb : b.1.isDir <;> cases hc : c.1.isDir <;>
    simp [ha, hb, hc] at h1 h2 ⊢
  · exact strLe_trans h1 h2
  · exact strLe_trans h1 h2

/-- The per-level loop of `walkTree`: print `├── ` for non-last and
`└── ` for the last sibling (directories with a trailing `/`), then the
entry's subtree rendered under the extended prefix. -/
def assembleSibs (depth : Nat) (pfx : String) :
    List (Entry × (String → Nat → List String)) → List String
  | [] => []
  | [(e, f)] =>
    (pfx ++ "└── " ++ e.name ++ (if e.isDir then "/" else "")) :: f (pfx ++ "    ") (depth + 1)
  | (e, f) :: rest =>
    ((pfx ++ "├── " ++ e.name ++ (if e.isDir then "/" else "")) :: f (pfx ++ "│   ") (depth + 1))
      ++ assembleSibs depth pfx rest

mutual
/-- Subtree lines of one entry (whose own path is `q`), as a function of
the prefix and depth it is rendered at.  Mirrors `walkTree` for
directories: depth cap first, then the `os.ReadDir` failure (warning and
empty render), then filter, sort and the sibling loop. -/
def rcE (crit : List String → Bool) (maxD : Nat) : List String → Entry → String → Nat → List String
  | _, .file _ _ _ => fun _ _ => []
  | q, .dir _ r cs => fun pfx depth =>
    if decide (0 < maxD) && decide (maxD ≤ depth) then []
    else if r then []
    else
      assembleSibs depth pfx
        (((rcPairs crit maxD q cs).filter fun pr => crit (q ++ [pr.1.name])).insertionSort treeR)

/-- Pair every child with its rendered subtree. -/
def rcPairs (crit : List String → Bool) (maxD : Nat) (q : List String) :
    List Entry → List (Entry × (String → Nat → List String))
  | [] => []
  | e :: es => (e, rcE crit maxD (q ++ [e.name]) e) :: rcPairs crit maxD q es
end

/-- `GenerateFileTree`: the root name line followed by the recursive
render of the root's children (the root is never filtered). -/
def generateFileTree (rootName : String) (crit : List String → Bool) (maxD : Nat)
    (fs : List Entry) : List String :=
  (rootName ++ "/") :: rcE crit maxD [] (.dir rootName false fs) "" 0

/-! ## Crawl result assembly -/

/-- `CrawlResult` (the rendered tree kept as its list of lines). -/
structure CrawlResult where
  includedFiles : List (List String)
  fileTree : List String
  excludedCount : Nat
  includedCount : Nat
deriving DecidableEq

/-- The successful-crawl body of `CrawlProject`: walk, sort the included
files (`sort.Strings`), and render the tree over exactly the paths
recorded in `includedPathsForTree`. -/
def runCrawl (o : Opts) (sc : Option (List String × Bool)) (rootName : String)
    (fs : List Entry) : CrawlResult :=
  let d := visitList o sc [] fs
  { includedFiles := d.files.insertionSort pathR
    fileTree := generateFileTree rootName (fun q => decide (q ∈ d.tree)) o.maxDepth fs
    excludedCount := d.excl
    includedCount := d.incl }

/-- `CrawlProject`: when a `--path` target is given it is `os.Stat`ed
first (a missing target is the only error this model can return — per-
entry walk errors are logged and skipped, and the walk callback never
returns a non-`SkipDir` error). -/
def crawlProject (o : Opts) (target : Option (List String)) (rootName : String)
    (fs : List Entry) : Except Unit CrawlResult :=
  match target with
  | none => .ok (runCrawl o none rootName fs)
  | some t =>
    match lookupE fs t with
    | none => .error ()
    | some e => .ok (runCrawl o (some (t, e.isDir)) rootName fs)

/-! ## Membership characterisation for `includedFiles`

Any path in the walk's file list is witnessed by a chain of descended
(unpruned, listable) directories ending in a file that passed every
check of the walk callback. -/

/-- `IncFile o sc p e q leaf`: starting at entry `e` (a child of the
directory at path `p`), the walk reaches and includes a file at path `q`;
`leaf` is that file entry.  Directories along the chain must have been
descended into (`dirVisit` said so and their listing was readable). -/
inductive IncFile (o : Opts) (sc : Option (List String × Bool)) :
    List String → Entry → List String → Entry → Prop
  | file {p : List String} {n : String} {c : List Nat} {r : Bool} :
      fileIncludedB o sc (p ++ [n]) n c r = true →
      IncFile o sc p (.file n c r) (p ++ [n]) (.file n c r)
  | dir {p : List String} {n : String} {cs : List Entry} {e : Entry}
      {q : List String} {leaf : Entry} :
      (dirVisit o sc (p ++ [n])).2 = true →
      e ∈ cs →
      IncFile o sc (p ++ [n]) e q leaf →
      IncFile o sc p (.dir n false cs) q leaf

theorem dirVisit_files (o : Opts) (sc : Option (List String × Bool)) (q : List String) :
    (dirVisit o sc q).1.files = [] := by
  unfold dirVisit
  split
  · rfl
  · split <;> rfl

theorem fileVisit_mem {o : Opts} {sc : Option (List String × Bool)} {q' : List String}
    {n : String} {c : List Nat} {r : Bool} {q : List String}
    (h : q ∈ (fileVisit o sc q' n c r).files) :
    q = q' ∧ fileIncludedB o sc q' n c r = true := by
  unfold fileVisit at h
  split at h
  · next hb => simp only [List.mem_singleton] at h; exact ⟨h, hb⟩
  · simp [exclDelta] at h

mutual
theorem mem_files_entry {o : Opts} {sc : Option (List String × Bool)}
    (p : List String) (e : Entry) (q : List String)
    (h : q ∈ (visitEntry o sc p e).files) :
    ∃ n c r, IncFile o sc p e q (.file n c r) := by
  match e with
  | .file n c r =>
    rw [show visitEntry o sc p (.file n c r) = fileVisit o sc (p ++ [n]) n c r from rfl] at h
    obtain ⟨hq, hb⟩ := fileVisit_mem h
    exact ⟨n, c, r, hq ▸ IncFile.file hb⟩
  | .dir n r cs =>
    rw [show visitEntry o sc p (.dir n r cs) =
      (if (dirVisit o sc (p ++ [n])).2 && !r then
        (dirVisit o sc (p ++ [n])).1 + visitList o sc (p ++ [n]) cs
      else (dirVisit o sc (p ++ [n])).1) from rfl] at h
    split at h
    · next hcond =>
      have hd := dirVisit_files o sc (p ++ [n])
      simp only [Bool.and_eq_true, Bool.not_eq_true'] at hcond
      rw [show ((dirVisit o sc (p ++ [n])).1 + visitList o sc (p ++ [n]) cs).files =
        (dirVisit o sc (p ++ [n])).1.files ++ (visitList o sc (p ++ [n]) cs).files from rfl,
        hd, List.nil_append] at h
      obtain ⟨e', he', n', c', r', hinc⟩ := mem_files_list (p ++ [n]) cs q h
      exact ⟨n', c', r', hcond.2 ▸ IncFile.dir hcond.1 he' hinc⟩
    · rw [dirVisit_files o sc (p ++ [n])] at h
      simp at h

theorem mem_files_list {o : Opts} {sc : Option (List String × Bool)}
    (p : List String) (es : List Entry) (q : List String)
    (h : q ∈ (visitList o sc p es).files) :
    ∃ e ∈ es, ∃ n c r, IncFile o sc p e q (.file n c r) := by
  match es with
  | [] => simp [visitList] at h
  | e :: rest =>
    rw [show visitList o sc p (e :: rest) = visitEntry o sc p e + visitList o sc p rest from rfl] at h
    rw [show (visitEntry o sc p e + visitList o sc p rest).files =
      (visitEntry o sc p e).files ++ (visitList o sc p rest).files from rfl] at h
    rcases List.mem_append.mp h with h1 | h2
    · obtain ⟨n, c, r, hinc⟩ := mem_files_entry p e q h1
      exact ⟨e, List.mem_cons_self e rest, n, c, r, hinc⟩
    · obtain ⟨e', he', n, c, r, hinc⟩ := mem_files_list p rest q h2
      exact ⟨e', List.mem_cons_of_mem e he', n, c, r, hinc⟩
end

/-- The file at the end of an inclusion chain passed every check. -/
theorem incFile_pass {o : Opts} {sc : Option (List String × Bool)}
    {p : List String} {e : Entry} {q : List String} {leaf : Entry}
    (h : IncFile o sc p e q leaf) :
    ∀ n c r, leaf = .file n c r → fileIncludedB o sc q n c r = true := by
  induction h with
  | file hb =>
    intro n' c' r' hleaf
    cases hleaf
    exact hb
  | dir _ _ _ ih => exact ih

/-- An inclusion chain only reaches paths below the entry it starts at. -/
theorem incFile_prefix {o : Opts} {sc : Option (List String × Bool)}
    {p : List String} {e : Entry} {q : List String} {leaf : Entry}
    (h : IncFile o sc p e q leaf) : (p ++ [e.name]) <+: q := by
  induction h with
  | file _ => exact List.prefix_refl _
  | dir hdv hmem hrec ih =>
    simp only [Entry.name]
    exact (List.prefix_append _ _).trans ih

/-! ## Well-formed trees (distinct sibling names) and path lookup -/

mutual
/-- A well-formed entry: directories have well-formed listings. -/
def wfE : Entry → Bool
  | .file _ _ _ => true
  | .dir _ _ cs => wfL cs

/-- A well-formed listing: pairwise distinct names, recursively. -/
def wfL : List Entry → Bool
  | [] => true
  | e :: es => wfE e && !(es.any fun x => x.name == e.name) && wfL es
end

theorem wfE_of_mem {es : List Entry} {e : Entry} (hwf : wfL es = true) (he : e ∈ es) :
    wfE e = true := by
  induction es with
  | nil => cases he
  | cons h rest ih =>
    rw [show wfL (h :: rest) = (wfE h && !(rest.any fun x => x.name == h.name) && wfL rest)
      from rfl] at hwf
    simp only [Bool.and_eq_true] at hwf
    rcases List.mem_cons.mp he with rfl | hmem
    · exact hwf.1.1
    · exact ih hwf.2 hmem

theorem find_unique {es : List Entry} {e : Entry} {n : String}
    (hwf : wfL es = true) (he : e ∈ es) (hn : e.name = n) :
    es.find? (fun x => x.name == n) = some e := by
  induction es with
  | nil => cases he
  | cons h rest ih =>
    rw [show wfL (h :: rest) = (wfE h && !(rest.any fun x => x.name == h.name) && wfL rest)
      from rfl] at hwf
    simp only [Bool.and_eq_true, Bool.not_eq_true'] at hwf
    rcases List.mem_cons.mp he with rfl | hmem
    · exact List.find?_cons_of_pos _ (by simp [hn])
    · have hne : h.name ≠ n := by
        intro hEq
        have : rest.any (fun x => x.name == h.name) = true :=
          List.any_eq_true.mpr ⟨e, hmem, by simp [hn, hEq]⟩
        rw [hwf.1.2] at this
        cases this
      rw [List.find?_cons_of_neg _ (by simp [hne])]
      exact ih hwf.2 hmem

theorem prefix_singleton_inj {p q : List String} {a b : String}
    (h1 : (p ++ [a]) <+: q) (h2 : (p ++ [b]) <+: q) : a = b := by
  have hle : (p ++ [a]).length ≤ (p ++ [b]).length := by simp
  have hpre : (p ++ [a]) <+: (p ++ [b]) := List.prefix_of_prefix_length_le h1 h2 hle
  have heq : p ++ [a] = p ++ [b] := hpre.eq_of_length (by simp)
  have := List.append_cancel_left heq
  simpa using this

/-- The walk includes no file at or below a directory whose listing is
broken (`readErr = true`), provided sibling names are distinct. -/
theorem no_inc_under_broken {o : Opts} {sc : Option (List String × Bool)} :
    ∀ (pth : List String) (es : List Entry) (p : List String)
      (e : Entry) (q : List String) (leaf : Entry) (m : String) (cs' : List Entry),
      wfL es = true → e ∈ es → IncFile o sc p e q leaf →
      lookupE es pth = some (.dir m true cs') → ¬ ((p ++ pth) <+: q) := by
  intro pth
  induction pth with
  | nil => intro es p e q leaf m cs' _ _ _ hlook; cases hlook
  | cons n rest ih =>
    intro es p e q leaf m cs' hwf he hinc hlook hpre
    cases rest with
    | nil =>
      -- pth = [n]: the unique entry named n is the broken directory,
      -- but any inclusion chain starts at an unbroken entry
      rw [show lookupE es [n] = es.find? (fun x => x.name == n) from rfl] at hlook
      have hq : (p ++ [e.name]) <+: q := incFile_prefix hinc
      have hname : e.name = n := prefix_singleton_inj hq (by simpa using hpre)
      have := find_unique hwf he hname
      rw [this] at hlook
      cases hinc with
      | file _ => cases hlook
      | dir _ _ _ => cases hlook
    | cons x rest' =>
      rw [show lookupE es (n :: x :: rest') =
        (match es.find? (fun e => e.name == n) with
         | some (.dir _ _ cs) => lookupE cs (x :: rest')
         | _ => none) from rfl] at hlook
      have hq : (p ++ [e.name]) <+: q := incFile_prefix hinc
      have hn' : (p ++ [n]) <+: q := by
        refine List.IsPrefix.trans ?_ hpre
        simp [List.prefix_append_right_inj]
      have hname : e.name = n := prefix_singleton_inj hq hn'
      subst hname
      have hfind := find_unique hwf he rfl
      rw [hfind] at hlook
      have hwfe := wfE_of_mem hwf he
      cases hinc with
      | file hb =>
        -- a file at p ++ [e.name] is too short to extend p ++ e.name :: x :: rest'
        have hlen := hpre.length_le
        simp only [Entry.name, List.length_append, List.length_cons, List.length_nil] at hlen
        omega
      | dir hdv hmem hrec =>
        simp only [Entry.name] at hpre hlook
        rw [show wfE (.dir _ false _) = wfL _ from rfl] at hwfe
        exact ih _ (_ ++ [_]) _ q leaf m cs' hwfe hmem hrec hlook
          (by simpa using hpre)

/-- In a well-formed tree, the file an inclusion chain reaches is exactly
the entry `os.Stat`/`lookupE` finds at the reached path. -/
theorem lookup_of_incFile {o : Opts} {sc : Option (List String × Bool)}
    {p : List String} {e : Entry} {q : List String} {leaf : Entry}
    (h : IncFile o sc p e q leaf) :
    ∀ es, wfL es = true → e ∈ es →
      ∃ suffix, suffix ≠ [] ∧ q = p ++ suffix ∧ lookupE es suffix = some leaf := by
  induction h with
  | @file p' n c r hb =>
    intro es hwf he
    refine ⟨[n], by simp, rfl, ?_⟩
    rw [show lookupE es [n] = es.find? (fun x => x.name == n) from rfl]
    exact find_unique hwf he rfl
  | @dir p' n cs e' q' leaf' hdv hmem hrec ih =>
    intro es hwf he
    have hwfe := wfE_of_mem hwf he
    rw [show wfE (.dir n false cs) = wfL cs from rfl] at hwfe
    obtain ⟨s', hs'ne, hq, hlook⟩ := ih cs hwfe hmem
    refine ⟨n :: s', by simp, by simpa [List.append_assoc] using hq, ?_⟩
    cases s' with
    | nil => exact absurd rfl hs'ne
    | cons a s'' =>
      rw [show lookupE es (n :: a :: s'') =
        (match es.find? (fun x => x.name == n) with
         | some (.dir _ _ cs0) => lookupE cs0 (a :: s'')
         | _ => none) from rfl]
      rw [find_unique hwf he (show Entry.name (.dir n false cs) = n from rfl)]
      exact hlook

/-- Membership in the final (sorted) `includedFiles` comes from the
walk's file list. -/
theorem mem_of_includedFiles {o : Opts} {sc : Option (List String × Bool)}
    {rn : String} {fs : List Entry} {q : List String}
    (h : q ∈ (runCrawl o sc rn fs).includedFiles) :
    q ∈ (visitList o sc [] fs).files :=
  (List.perm_insertionSort pathR _).subset h

/-- A file whose content cannot be read is never "text" for the crawler
(the classification error is treated as binary). -/
theorem isTextB_readErr (n : String) (c : List Nat) : isTextB n c true = false := by
  unfold isTextB isLikelyTextFile
  by_cases hext : lowerStr (extOf n) ∈ binaryExtensions <;> simp [hext]

theorem utf8Valid_cons_89 (l : List Nat) : utf8Valid (0x89 :: l) = false := by
  rw [utf8Valid, utf8ValidSM]
  rw [if_neg (by decide), if_neg (by decide), if_neg (by decide), if_neg (by decide),
    if_neg (by decide), if_neg (by decide), if_neg (by decide), if_neg (by decide)]

/-- Content beginning with the PNG magic bytes is never "text": either
the extension is in the binary set, or the read fails (error ⇒ binary),
or the sniffed chunk starts with `0x89`, which is invalid UTF-8. -/
theorem isTextB_png (n : String) (rest : List Nat) (r : Bool) :
    isTextB n (0x89 :: 0x50 :: 0x4E :: 0x47 :: rest) r = false := by
  unfold isTextB isLikelyTextFile
  by_cases hext : lowerStr (extOf n) ∈ binaryExtensions
  · simp [hext]
  · cases r
    · have hchunk : (0x89 :: 0x50 :: 0x4E :: 0x47 :: rest).take 4096 =
        0x89 :: ((0x50 :: 0x4E :: 0x47 :: rest).take 4095) := rfl
      simp only [hext, if_false, hchunk, List.isEmpty_cons, utf8Valid_cons_89]
      split
      · rfl
      · next b heq =>
        have h2 : (Except.ok false : Except Unit Bool) = Except.ok b := by
          simpa using heq
        cases h2
        rfl
    · simp [hext]

/-- The walk's file list is the concatenation of the per-entry file
lists, in listing order. -/
theorem visitList_files_eq (o : Opts) (sc : Option (List String × Bool))
    (p : List String) (es : List Entry) :
    (visitList o sc p es).files = (es.map fun e => (visitEntry o sc p e).files).flatten := by
  induction es with
  | nil => rfl
  | cons e rest ih =>
    rw [show visitList o sc p (e :: rest) = visitEntry o sc p e + visitList o sc p rest from rfl]
    rw [show (visitEntry o sc p e + visitList o sc p rest).files =
      (visitEntry o sc p e).files ++ (visitList o sc p rest).files from rfl, ih]
    simp

/-- Permuting a directory listing permutes the walk's collected files. -/
theorem visitList_files_perm (o : Opts) (sc : Option (List String × Bool))
    (p : List String) {es es' : List Entry} (h : es.Perm es') :
    ((visitList o sc p es).files).Perm (visitList o sc p es').files := by
  rw [visitList_files_eq, visitList_files_eq]
  exact (h.map _).flatten

/-- Decoding the Latin-1 fallback output recovers exactly the original
byte values as code points. -/
theorem utf8Decode_latin1 (bs : List Nat) (hb : ∀ b ∈ bs, b < 256) :
    utf8Decode (latin1Bytes bs) = bs := by
  unfold utf8Decode
  induction bs with
  | nil => rfl
  | cons b rest ih =>
    have hb256 : b < 256 := hb b (List.mem_cons_self _ _)
    have hrest : ∀ x ∈ rest, x < 256 := fun x hx => hb x (List.mem_cons_of_mem _ hx)
    have henc : latin1Bytes (b :: rest) = latin1EncByte b ++ latin1Bytes rest := by
      simp [latin1Bytes]
    rw [henc]
    by_cases hsmall : b < 0x80
    · rw [show latin1EncByte b = [b] from by simp [latin1EncByte, hsmall]]
      rw [List.cons_append, List.nil_append]
      rw [utf8DecodeAcc, if_pos hsmall]
      rw [ih hrest]
    · have h1 : latin1EncByte b = [0xC0 + b / 64, 0x80 + b % 64] := by
        simp [latin1EncByte, hsmall]
      rw [h1]
      have hx1 : ¬ (0xC0 + b / 64 < 0x80) := by omega
      have hx2 : (decide (0xC0 ≤ 0xC0 + b / 64) && decide (0xC0 + b / 64 ≤ 0xDF)) = true := by
        have hd : b / 64 ≤ 3 := by omega
        simp
        omega
      rw [List.cons_append, List.cons_append, List.nil_append]
      rw [utf8DecodeAcc, if_neg hx1, if_pos hx2]
      rw [utf8DecodeAcc]
      have hcont : isCont (0x80 + b % 64) = true := by
        have : b % 64 < 64 := by omega
        simp [isCont]
        omega
      rw [if_pos hcont]
      have hval : (0xC0 + b / 64 - 0xC0) * 64 + (0x80 + b % 64 - 0x80) = b := by
        have := Nat.div_add_mod b 64
        omega
      rw [ih hrest]
      rw [show (0xC0 + b / 64 - 0xC0) * 64 + (0x80 + b % 64 - 0x80) = b from hval]

/-- A readable file whose content starts with the PNG magic bytes is
classified Binary (never `.ok true`, and never an error either). -/
theorem isLikelyTextFile_png (n : String) (rest : List Nat) :
    isLikelyTextFile n (0x89 :: 0x50 :: 0x4E :: 0x47 :: rest) false = .ok false := by
  unfold isLikelyTextFile
  by_cases hext : lowerStr (extOf n) ∈ binaryExtensions
  · simp [hext]
  · have hchunk : (0x89 :: 0x50 :: 0x4E :: 0x47 :: rest).take 4096 =
      0x89 :: ((0x50 :: 0x4E :: 0x47 :: rest).take 4095) := rfl
    simp only [hext, hchunk, List.isEmpty_cons, utf8Valid_cons_89, Bool.false_eq_true,
      if_false, not_false_eq_true, if_true, Bool.not_false]

/-- An included file is never the output file. -/
theorem fileIncludedB_output {o : Opts} {sc : Option (List String × Bool)}
    {q : List String} {n : String} {c : List Nat} {r : Bool}
    (h : fileIncludedB o sc q n c r = true) : q ≠ o.output := by
  unfold fileIncludedB at h
  simp only [Bool.and_eq_true, bne_iff_ne, ne_eq] at h
  exact h.1.1.1.2

/-- With binary exclusion on and no include override, an included file
was sniffed as text. -/
theorem fileIncludedB_binary {o : Opts} {sc : Option (List String × Bool)}
    {q : List String} {n : String} {c : List Nat} {r : Bool}
    (h : fileIncludedB o sc q n c r = true)
    (hinc : o.inc q = false) (hbin : o.excludeBinary = true) :
    isTextB n c r = true := by
  unfold fileIncludedB at h
  simp only [Bool.and_eq_true] at h
  have h6 := h.2
  rw [hinc, hbin] at h6
  simpa using h6

/-- Interpretation of the tree sort relation: directories come before
files, and within the same kind names are in case-insensitive order. -/
theorem treeR_interp {a b : Entry × (String → Nat → List String)} (h : treeR a b) :
    (b.1.isDir = true → a.1.isDir = true) ∧
    (a.1.isDir = b.1.isDir → ciLe a.1.name b.1.name = true) := by
  unfold treeR treeLess at h
  unfold ciLe
  cases ha : a.1.isDir <;> cases hb : b.1.isDir <;> simp [ha, hb] at h ⊢ <;>
    try exact h

/-- The sibling loop prints exactly one connector line per entry:
`├── ` for every non-last sibling, `└── ` for the last, each followed by
that entry's subtree rendered under the extended prefix. -/
theorem assembleSibs_eq (depth : Nat) (pfx : String)
    (l : List (Entry × (String → Nat → List String))) :
    assembleSibs depth pfx l =
      (l.dropLast.map fun pr =>
        (pfx ++ "├── " ++ pr.1.name ++ (if pr.1.isDir then "/" else "")) ::
          pr.2 (pfx ++ "│   ") (depth + 1)).flatten
      ++ (match l.getLast? with
          | none => []
          | some pr => (pfx ++ "└── " ++ pr.1.name ++ (if pr.1.isDir then "/" else "")) ::
              pr.2 (pfx ++ "    ") (depth + 1)) := by
  induction l with
  | nil => rfl
  | cons x xs ih =>
    cases xs with
    | nil => rfl
    | cons y ys =>
      rw [show assembleSibs depth pfx (x :: y :: ys) =
        ((pfx ++ "├── " ++ x.1.name ++ (if x.1.isDir then "/" else "")) ::
          x.2 (pfx ++ "│   ") (depth + 1)) ++ assembleSibs depth pfx (y :: ys) from rfl, ih]
      rw [show (x :: y :: ys).dropLast = x :: (y :: ys).dropLast from rfl]
      rw [show (x :: y :: ys).getLast? = (y :: ys).getLast? from List.getLast?_cons_cons ..]
      simp [List.append_assoc]

/-! ## Claim theorems -/

/-- C1 counterexample: with patterns `["*.log", "!important.log"]`,
`ShouldIgnore "important.log"` returns `true`, not `false` as claimed —
the loop returns at the first matching non-negated pattern, so the later
negation is never consulted. -/
theorem c1_counterexample :
    shouldIgnore ["*.log", "!important.log"] "important.log" = true := by decide

/-- C1 (amended): evaluation exits at the first matching pattern, so a
negated pattern reverses a match only when it precedes the non-negated
pattern in the list: `["*.log", "!important.log"]` ignores both
`important.log` and `debug.log`, while `["!important.log", "*.log"]`
exempts `important.log` and still ignores `debug.log`; in general a
leading negated pattern that matches forces `false` immediately. -/
theorem c1_amended :
    shouldIgnore ["*.log", "!important.log"] "important.log" = true ∧
    shouldIgnore ["*.log", "!important.log"] "debug.log" = true ∧
    shouldIgnore ["!important.log", "*.log"] "important.log" = false ∧
    shouldIgnore ["!important.log", "*.log"] "debug.log" = true ∧
    (∀ (neg : String) (ps : List String) (path : String),
      shouldIgnore (("!" ++ neg) :: ps) path =
        if matchPattern path.data neg.data then false else shouldIgnore ps path) := by
  refine ⟨by decide, by decide, by decide, by decide, fun neg ps path => ?_⟩
  have hdata : ("!" ++ neg).data = '!' :: neg.data := by
    have h := String.data_append "!" neg
    exact h
  unfold shouldIgnore
  simp only [shouldIgnoreAux, hdata, List.head?_cons, List.tail_cons]
  simp

/-- C10: `ReadFileContent` fails only when the underlying read fails;
every successfully read byte string decodes — valid UTF-8 is returned
as-is, and otherwise each byte becomes the code point of its Latin-1
value (decoding the produced string recovers exactly the byte values). -/
theorem c10_read_file_content :
    readFileContent none = .error () ∧
    (∀ bs : List Nat, readFileContent (some bs) =
      .ok (if utf8Valid bs then bs else latin1Bytes bs)) ∧
    (∀ bs : List Nat, (∀ b ∈ bs, b < 256) → utf8Decode (latin1Bytes bs) = bs) := by
  refine ⟨rfl, fun bs => ?_, fun bs h => utf8Decode_latin1 bs h⟩
  by_cases hv : utf8Valid bs <;> simp [readFileContent, hv]

/-- Witness for C10 at the single Latin-1 byte `0xE9` (`é`). -/
theorem c10_witness :
    readFileContent (some [0xE9]) = .ok (latin1Bytes [0xE9]) ∧
    utf8Decode (latin1Bytes [0xE9]) = [0xE9] := by
  constructor
  · rw [c10_read_file_content.2.1 [0xE9]]
    decide
  · exact c10_read_file_content.2.2 [0xE9] (by decide)

/-- C6: the crawl's own output file path never appears in
`includedFiles`, for every tree, scope, matcher set and option
combination (check 2 of the walk callback precedes inclusion and is not
overridden by anything). -/
theorem c6_self_exclusion (o : Opts) (sc : Option (List String × Bool))
    (rn : String) (fs : List Entry) :
    o.output ∉ (runCrawl o sc rn fs).includedFiles := by
  intro hq
  obtain ⟨e, _, n, c, r, hinc⟩ := mem_files_list [] fs _ (mem_of_includedFiles hq)
  exact fileIncludedB_output (incFile_pass hinc n c r rfl) rfl

/-- The depth-boundary tree: `a/b.go` at depth 2, `a/b/c.go` at depth 3. -/
def c5Fs : List Entry :=
  [.dir "a" false [.file "b.go" [112, 107] false, .dir "b" false [.file "c.go" [113, 10] false]]]

/-- Options with everything permissive except the given `maxDepth`. -/
def c5Opts (d : Nat) : Opts :=
  { output := ["llm.txt"], maxDepth := d, excludeBinary := false,
    ign := fun _ => false, inc := fun _ => false, exc := fun _ => false }

/-- C5: with `maxDepth = 2` the depth-3 file `a/b/c.go` is excluded
while the depth-2 file `a/b.go` is included; with `maxDepth = 0` no
depth limit applies and both files are included. -/
theorem c5_depth_boundary :
    (runCrawl (c5Opts 2) none "root" c5Fs).includedFiles = [["a", "b.go"]] ∧
    (runCrawl (c5Opts 0) none "root" c5Fs).includedFiles =
      [["a", "b.go"], ["a", "b", "c.go"]] := by
  constructor <;> decide

/-- A root listing whose byte-order sort differs from its
case-insensitive sort. -/
def c3Fs : List Entry := [.file "a.go" [112] false, .file "B.go" [113] false]

/-- C3 counterexample: the crawl over `c3Fs` returns
`["B.go", "a.go"]` (`sort.Strings` byte order, upper-case first), which
is not sorted case-insensitively. -/
theorem c3_counterexample :
    (runCrawl (c5Opts 0) none "root" c3Fs).includedFiles.map joinP = ["B.go", "a.go"] ∧
    ¬ List.Sorted (fun a b => ciLe a b = true)
        ((runCrawl (c5Opts 0) none "root" c3Fs).includedFiles.map joinP) := by
  constructor
  · decide
  · decide

/-- C3 (amended): `includedFiles` is sorted lexicographically by raw
byte order of the joined relative path (`sort.Strings`), not
case-insensitively; and the multiset of collected files is independent
of the order in which a directory listing is handed to the walk. -/
theorem c3_amended :
    (∀ (o : Opts) (sc : Option (List String × Bool)) (rn : String) (fs : List Entry),
      List.Sorted pathR (runCrawl o sc rn fs).includedFiles) ∧
    (∀ (o : Opts) (sc : Option (List String × Bool)) (p : List String)
      (es es' : List Entry), es.Perm es' →
      ((visitList o sc p es).files).Perm ((visitList o sc p es').files)) := by
  constructor
  · intro o sc rn fs
    exact List.sorted_insertionSort pathR _
  · intro o sc p es es' h
    exact visitList_files_perm o sc p h

/-- Witness for C3 (amended) at a concrete two-entry listing and its
transposition. -/
theorem c3_witness :
    ((visitList (c5Opts 0) none [] c3Fs).files).Perm
      ((visitList (c5Opts 0) none [] [Entry.file "B.go" [113] false,
        Entry.file "a.go" [112] false]).files) := by
  apply c3_amended.2
  show c3Fs.Perm _
  unfold c3Fs
  exact List.Perm.swap _ _ []

/-- Modelled from the spec: the ignore matcher the external gitignore
library compiles from the single rule `node_modules/` — "a pattern
ending in `/` … matches if the path equals the pattern's prefix or
starts with prefix + `/`" (spec §4.1). -/
def nmIgnorer (q : List String) : Bool := q.headD "" == "node_modules"

/-- Modelled from the spec: the CLI include matcher compiled from
`node_modules/pkg/index.js` (a slash-containing pattern is anchored to
the full relative path, spec §4.1). -/
def nmInclude (q : List String) : Bool := q == ["node_modules", "pkg", "index.js"]

/-- The spec's end-to-end override scenario tree. -/
def c2Fs : List Entry :=
  [.dir "node_modules" false [.dir "pkg" false [.file "index.js" [108, 101, 116] false]],
   .dir "src" false [.file "a.go" [112, 107, 103] false]]

/-- Crawl options of the override scenario:
`--include node_modules/pkg/index.js` against an ignored `node_modules/`. -/
def c2Opts : Opts :=
  { output := ["llm.txt"], maxDepth := 0, excludeBinary := true,
    ign := nmIgnorer, inc := nmInclude, exc := fun _ => false }

/-- C2 counterexample: `node_modules/pkg/index.js` is matched by the
ignore rule and by the CLI include pattern, yet it does **not** appear in
`includedFiles` — the ignored `node_modules` directory is pruned
(`SkipDir`) because the include matcher does not match the directory
path itself, so the file is never visited. -/
theorem c2_counterexample :
    nmIgnorer ["node_modules", "pkg", "index.js"] = true ∧
    nmInclude ["node_modules", "pkg", "index.js"] = true ∧
    ["node_modules", "pkg", "index.js"] ∉ (runCrawl c2Opts none "root" c2Fs).includedFiles := by
  refine ⟨by decide, by decide, by decide⟩

/-- Modelled from the spec: the basename matcher for the ignore rule
`*.log` (a pattern without `/` matches the base name at any level). -/
def logIgnorer (q : List String) : Bool := ['.', 'l', 'o', 'g'].isSuffixOf (q.getLastD "").data

/-- Modelled from the spec: the CLI include matcher compiled from
`keep.log`. -/
def keepInclude (q : List String) : Bool := q == ["keep.log"]

/-- Override scenario where the ignored path itself is visited. -/
def c2bFs : List Entry := [.file "keep.log" [104, 105] false]

/-- Options for the visited-override scenario. -/
def c2bOpts : Opts :=
  { output := ["llm.txt"], maxDepth := 0, excludeBinary := true,
    ign := logIgnorer, inc := keepInclude, exc := fun _ => false }

/-- C2 (amended): the CLI include override applies only to paths the
walk actually visits.  A top-level file matched by both the ignore rule
and the include pattern is included (`keep.log`); but a file beneath an
ignored directory is never reached — in the spec's own scenario the
crawl returns only `src/a.go` and the whole `node_modules` subtree stays
pruned. -/
theorem c2_amended :
    (runCrawl c2Opts none "root" c2Fs).includedFiles = [["src", "a.go"]] ∧
    logIgnorer ["keep.log"] = true ∧
    keepInclude ["keep.log"] = true ∧
    (runCrawl c2bOpts none "root" c2bFs).includedFiles = [["keep.log"]] := by
  refine ⟨by decide, by decide, by decide, by decide⟩

/-- C4: the crawl itself never aborts — per-entry walk errors are
handled by skipping: without a `--path` target, `CrawlProject` always
returns a `CrawlResult`, and no file at or below a directory whose
listing cannot be read appears in `includedFiles` (its subtree is
pruned). -/
theorem c4_crawl_error_resilience (o : Opts) (rn : String) (fs : List Entry) :
    crawlProject o none rn fs = .ok (runCrawl o none rn fs) ∧
    (∀ (pth : List String) (m : String) (cs : List Entry) (q : List String),
      wfL fs = true → lookupE fs pth = some (.dir m true cs) → pth <+: q →
      q ∉ (runCrawl o none rn fs).includedFiles) := by
  refine ⟨rfl, fun pth m cs q hwf hlook hpre hq => ?_⟩
  obtain ⟨e, he, n, c, r, hinc⟩ := mem_files_list [] fs _ (mem_of_includedFiles hq)
  exact no_inc_under_broken pth fs [] e q (.file n c r) m cs hwf he hinc hlook
    (by simpa using hpre)

/-- The tree for the C4 witness: a directory whose listing fails, with a
file inside it, next to a readable file. -/
def c4Fs : List Entry :=
  [.dir "broken" true [.file "x.go" [112, 10] false], .file "ok.go" [113, 10] false]

/-- Witness for C4: the crawl over `c4Fs` completes with a result, and
the file beneath the unreadable directory is not among the included
files. -/
theorem c4_witness :
    crawlProject (c5Opts 0) none "root" c4Fs = .ok (runCrawl (c5Opts 0) none "root" c4Fs) ∧
    ["broken", "x.go"] ∉ (runCrawl (c5Opts 0) none "root" c4Fs).includedFiles :=
  ⟨(c4_crawl_error_resilience (c5Opts 0) "root" c4Fs).1,
   (c4_crawl_error_resilience (c5Opts 0) "root" c4Fs).2 ["broken"] "broken"
     [.file "x.go" [112, 10] false] ["broken", "x.go"] (by decide) rfl ⟨["x.go"], rfl⟩⟩

/-- Shared core for C7/C8: a file that sniffs as non-text (or whose
sniff fails) is excluded whenever binary exclusion is on and no CLI
include pattern matches it. -/
theorem not_included_of_not_text {o : Opts} {sc : Option (List String × Bool)}
    {rn : String} {fs : List Entry} {pth : List String} {n : String}
    {c : List Nat} {r : Bool}
    (hwf : wfL fs = true) (hlook : lookupE fs pth = some (.file n c r))
    (hbin : o.excludeBinary = true) (hinc : o.inc pth = false)
    (htext : isTextB n c r = false) :
    pth ∉ (runCrawl o sc rn fs).includedFiles := by
  intro hq
  obtain ⟨e, he, n', c', r', hinc'⟩ := mem_files_list [] fs _ (mem_of_includedFiles hq)
  obtain ⟨suffix, hne, hqeq, hlook2⟩ := lookup_of_incFile hinc' fs hwf he
  have hsfx : suffix = pth := by simpa using hqeq.symm
  rw [hsfx, hlook] at hlook2
  injection hlook2 with heq
  injection heq with hn hc hr
  have hpass := incFile_pass hinc' n' c' r' rfl
  have htxt := fileIncludedB_binary hpass hinc hbin
  rw [← hn, ← hc, ← hr] at htxt
  rw [htext] at htxt
  cases htxt

/-- C8: when a file's content cannot be read for binary/text sniffing
(and no CLI include overrides it), the file is excluded rather than
included, and the crawl still completes with a result. -/
theorem c8_unreadable_excluded (o : Opts) (sc : Option (List String × Bool))
    (rn : String) (fs : List Entry) (pth : List String) (n : String) (c : List Nat) :
    wfL fs = true → lookupE fs pth = some (.file n c true) →
    o.excludeBinary = true → o.inc pth = false →
    pth ∉ (runCrawl o sc rn fs).includedFiles ∧
      crawlProject o none rn fs = .ok (runCrawl o none rn fs) := by
  intro hwf hlook hbin hinc
  exact ⟨not_included_of_not_text hwf hlook hbin hinc (isTextB_readErr n c), rfl⟩

/-- The tree for the C8 witness: an unreadable file beside a text file. -/
def c8Fs : List Entry := [.file "bad.dat" [] true, .file "ok.txt" [104, 105] false]

/-- Options for the C8 witness (binary exclusion on, no includes). -/
def c8Opts : Opts :=
  { output := ["llm.txt"], maxDepth := 0, excludeBinary := true,
    ign := fun _ => false, inc := fun _ => false, exc := fun _ => false }

/-- Witness for C8: the unreadable `bad.dat` is excluded while the crawl
returns a result. -/
theorem c8_witness :
    ["bad.dat"] ∉ (runCrawl c8Opts none "root" c8Fs).includedFiles ∧
      crawlProject c8Opts none "root" c8Fs = .ok (runCrawl c8Opts none "root" c8Fs) :=
  c8_unreadable_excluded c8Opts none "root" c8Fs ["bad.dat"] "bad.dat" []
    (by decide) rfl rfl rfl

/-- The tree for the C7 counterexample: a PNG-magic file the CLI include
matcher names explicitly. -/
def c7Fs : List Entry := [.file "img.png" [0x89, 0x50, 0x4E, 0x47] false]

/-- Options for the C7 counterexample: binary exclusion on, but
`--include img.png`. -/
def c7Opts : Opts :=
  { output := ["llm.txt"], maxDepth := 0, excludeBinary := true,
    ign := fun _ => false, inc := fun q => q == ["img.png"], exc := fun _ => false }

/-- C7 counterexample: a file whose content begins with the PNG magic
bytes *does* appear in `includedFiles` with `excludeBinary = true` when
a CLI include pattern matches it — the include override bypasses the
binary check (step 5 of the walk callback). -/
theorem c7_counterexample :
    isLikelyTextFile "img.png" [0x89, 0x50, 0x4E, 0x47] false = .ok false ∧
    (runCrawl c7Opts none "root" c7Fs).includedFiles = [["img.png"]] := by
  refine ⟨by decide, by decide⟩

/-- C7 (amended): content beginning with the PNG magic bytes is always
classified Binary; and with `excludeBinary = true` such a file never
appears in `includedFiles` **unless** a CLI `--include` pattern matches
its path (in which case the binary check is skipped). -/
theorem c7_amended :
    (∀ (n : String) (rest : List Nat),
      isLikelyTextFile n (0x89 :: 0x50 :: 0x4E :: 0x47 :: rest) false = .ok false) ∧
    (∀ (o : Opts) (sc : Option (List String × Bool)) (rn : String) (fs : List Entry)
      (pth : List String) (n : String) (rest : List Nat) (r : Bool),
      wfL fs = true →
      lookupE fs pth = some (.file n (0x89 :: 0x50 :: 0x4E :: 0x47 :: rest) r) →
      o.excludeBinary = true → o.inc pth = false →
      pth ∉ (runCrawl o sc rn fs).includedFiles) := by
  refine ⟨fun n rest => isLikelyTextFile_png n rest, ?_⟩
  intro o sc rn fs pth n rest r hwf hlook hbin hinc
  exact not_included_of_not_text hwf hlook hbin hinc (isTextB_png n rest r)

/-- Witness for C7 (amended): with no include override the PNG-magic file
is excluded. -/
theorem c7_witness :
    isLikelyTextFile "img.png" [0x89, 0x50, 0x4E, 0x47] false = .ok false ∧
    ["img.png"] ∉ (runCrawl c8Opts none "root" c7Fs).includedFiles :=
  ⟨c7_amended.1 "img.png" [],
   c7_amended.2 c8Opts none "root" c7Fs ["img.png"] "img.png" [] false
     (by decide) rfl rfl rfl⟩

/-- C9: the tree renderer, for any directory, any include criteria and
any depth/prefix: it renders the filtered entries sorted (directories
before files, each group case-insensitively alphabetical), each entry
exactly once (the sorted list is a permutation of the filtered one) with
connector `├── ` for every non-last sibling and `└── ` for the last
sibling, followed by that entry's subtree under the extended prefix. -/
theorem c9_tree_renderer (crit : List String → Bool) (maxD : Nat) (q : List String)
    (nm : String) (r : Bool) (cs : List Entry) (pfx : String) (depth : Nat) :
    (rcE crit maxD q (.dir nm r cs) pfx depth =
      if decide (0 < maxD) && decide (maxD ≤ depth) then []
      else if r then []
      else assembleSibs depth pfx
        (((rcPairs crit maxD q cs).filter fun pr =>
          crit (q ++ [pr.1.name])).insertionSort treeR)) ∧
    ((((rcPairs crit maxD q cs).filter fun pr =>
        crit (q ++ [pr.1.name])).insertionSort treeR).Perm
      ((rcPairs crit maxD q cs).filter fun pr => crit (q ++ [pr.1.name]))) ∧
    ((((rcPairs crit maxD q cs).filter fun pr =>
        crit (q ++ [pr.1.name])).insertionSort treeR).Pairwise fun a b =>
      (b.1.isDir = true → a.1.isDir = true) ∧
      (a.1.isDir = b.1.isDir → ciLe a.1.name b.1.name = true)) ∧
    (∀ (l : List (Entry × (String → Nat → List String))) (d : Nat) (px : String),
      assembleSibs d px l =
        (l.dropLast.map fun pr =>
          (px ++ "├── " ++ pr.1.name ++ (if pr.1.isDir then "/" else "")) ::
            pr.2 (px ++ "│   ") (d + 1)).flatten
        ++ (match l.getLast? with
            | none => []
            | some pr => (px ++ "└── " ++ pr.1.name ++ (if pr.1.isDir then "/" else "")) ::
                pr.2 (px ++ "    ") (d + 1))) := by
  refine ⟨rfl, List.perm_insertionSort treeR _, ?_, fun l d px => assembleSibs_eq d px l⟩
  exact (List.sorted_insertionSort treeR _).imp fun h => treeR_interp h
